import Mathlib

/-!
Verification of the smooth-quant transform engine and the random tuning
strategy of the neural-compressor repository, as a shallow embedding over
real-valued tensors represented by lists.

Tensors are modelled over the reals: a 1-D tensor is a list of reals and a
2-D tensor (a weight matrix, rows of output channels over input-channel
columns) is a list of rows.  Machine floats are idealised as exact reals;
every statement about floating tolerance is settled in exact arithmetic.
-/

namespace NeuralCompressor

abbrev Tensor1 := List ℝ

abbrev Tensor2 := List (List ℝ)

/-- Column-wise maximum of absolute values over a list of rows, the embedding
of `torch.max(torch.abs(weights), dim=0)[0]` on a 2-D tensor.  An empty row
list (which raises in torch) returns the empty tensor as a junk value. -/
def colAbsMax (rows : List Tensor1) : Tensor1 :=
  match rows.map (List.map (fun x => |x|)) with
  | [] => []
  | r :: rs => rs.foldl (List.zipWith max) r

/-- Concatenation along dim 0 of a list of 2-D tensors (`torch.cat(ws, dim=0)`). -/
def catDim0 (ws : List Tensor2) : List Tensor1 := ws.flatten

/-- Embedding of `cal_scale` (scale_type "orig") from
`neural_compressor/torch/algorithms/smooth_quant/utility.py`:
concatenate the weights along dim 0, take the per-input-channel absolute
maximum, raise the input max to `alpha` and the weight max to `1 - alpha`,
clip the quotient below at `1e-5`, force channels with zero input power to 1,
and, when the two power tensors have equal size, force channels with zero
weight power to 0 (the branch marked FIXME in the source). -/
noncomputable def calScale (inputMax : Tensor1) (weights : List Tensor2)
    (α : ℝ) : Tensor1 :=
  let weightMax := colAbsMax (catDim0 weights)
  let inputPower := inputMax.map (fun x => x ^ α)
  let weightPower := weightMax.map (fun x => x ^ (1 - α))
  let scale0 := List.zipWith (fun ip wp => max (ip / wp) 1e-5) inputPower weightPower
  let scale1 := List.zipWith (fun ip s => if ip = 0 then 1 else s) inputPower scale0
  if inputPower.length = weightPower.length then
    List.zipWith (fun wp s => if wp = 0 then 0 else s) weightPower scale1
  else scale1

/-- The scale formula as the specification states it, with the corrected
direction of the degenerate-channel fallback: the scale of a channel is
`clip(inputmax^alpha / weightmax^(1-alpha), min = 1e-5)`, a channel with zero
activation power is forced to 1, and a channel with zero weight power is
forced to 0 exactly when the activation-power and weight-power tensors have
matching sizes. -/
noncomputable def calScaleSpec (inputMax : Tensor1) (weights : List Tensor2)
    (α : ℝ) : Tensor1 :=
  let weightMax := colAbsMax (catDim0 weights)
  List.zipWith
    (fun ip wp =>
      if inputMax.length = weightMax.length ∧ wp = 0 then 0
      else if ip = 0 then 1 else max (ip / wp) 1e-5)
    (inputMax.map (fun x => x ^ α)) (weightMax.map (fun x => x ^ (1 - α)))

section ZipFusion

variable {α β γ : Type}

theorem zipWith_left_fuse (f : α → γ → γ) (g : α → β → γ) :
    ∀ (a : List α) (b : List β),
      List.zipWith f a (List.zipWith g a b) =
        List.zipWith (fun x y => f x (g x y)) a b
  | [], _ => rfl
  | _ :: _, [] => rfl
  | x :: a, y :: b => by
    simp [List.zipWith, zipWith_left_fuse f g a b]

theorem zipWith_right_fuse (f : β → γ → γ) (g : α → γ → γ) (h : α → β → γ) :
    ∀ (a : List α) (b : List β),
      List.zipWith f b (List.zipWith g a (List.zipWith h a b)) =
        List.zipWith (fun x y => f y (g x (h x y))) a b
  | [], [] => rfl
  | [], _ :: _ => rfl
  | _ :: _, [] => rfl
  | x :: a, y :: b => by
    simp [List.zipWith, zipWith_right_fuse f g h a b]

end ZipFusion

theorem calScale_eq_calScaleSpec (inputMax : Tensor1) (weights : List Tensor2)
    (α : ℝ) : calScale inputMax weights α = calScaleSpec inputMax weights α := by
  unfold calScale calScaleSpec
  by_cases hlen :
      (inputMax.map (fun x => x ^ α)).length =
        ((colAbsMax (catDim0 weights)).map (fun x => x ^ (1 - α))).length
  · rw [if_pos hlen, zipWith_right_fuse]
    have hlen' : inputMax.length = (colAbsMax (catDim0 weights)).length := by
      simpa using hlen
    congr 1
    funext ip wp
    simp [hlen']
  · rw [if_neg hlen, zipWith_left_fuse]
    have hlen' : ¬ inputMax.length = (colAbsMax (catDim0 weights)).length := by
      simpa using hlen
    congr 1
    funext ip wp
    simp [hlen']

/-- C3: `cal_scale` computes `clip(inputmax^alpha / weightmax^(1-alpha), min=1e-5)`,
forces channels with zero activation power to 1, and forces channels with zero
weight power to 0 exactly when the activation-power and weight-power tensor
sizes AGREE (the claim stated the opposite direction: "disagree"). -/
theorem calScale_characterization (inputMax : Tensor1) (weights : List Tensor2)
    (α : ℝ) : calScale inputMax weights α = calScaleSpec inputMax weights α :=
  calScale_eq_calScaleSpec inputMax weights α

/-- C3 counterexample: with input max `[1,1]` and a single weight row `[0,1]`
the two power tensors have EQUAL size, yet channel 0 (whose weight power is
zero) is forced to 0 — not to the clipped quotient (which is at least `1e-5`)
nor to the no-op value 1.  So the force-to-zero does not happen "exactly when
the sizes disagree". -/
theorem calScale_force_zero_counterexample :
    calScale [1, 1] [[[0, 1]]] ((1 : ℝ)/2) = [0, 1] ∧
      ([(1 : ℝ), 1].length = (colAbsMax (catDim0 [[[0, 1]]])).length) ∧
      (0 : ℝ) ≠ 1 ∧ ¬ ((1e-5 : ℝ) ≤ 0) := by
  have habs : colAbsMax (catDim0 [[[(0 : ℝ), 1]]]) = [0, 1] := by
    simp [colAbsMax, catDim0]
  have hexp : (1 : ℝ) - 1/2 = 1/2 := by norm_num
  have hz : (0 : ℝ) ^ ((1 : ℝ)/2) = 0 := Real.zero_rpow (by norm_num)
  refine ⟨?_, by simp [habs], by norm_num, by norm_num⟩
  simp only [calScale, habs, hexp, List.map, Real.one_rpow, hz, List.zipWith,
    List.length_cons, List.length_nil]
  norm_num

/-- C2, amended: in `cal_scale`, when the activation-power and weight-power
tensors have equal size and `alpha < 1`, every channel whose weight max is
zero gets a computed scale of exactly 0 (the defensive fallback marked FIXME
in the source), not 1.0 as the claim stated. -/
theorem calScale_zero_weight_max (inputMax : Tensor1) (weights : List Tensor2)
    (α : ℝ) (hα : α < 1)
    (hlen : inputMax.length = (colAbsMax (catDim0 weights)).length)
    (j : ℕ) (hj : j < inputMax.length)
    (hwm : (colAbsMax (catDim0 weights))[j]? = some 0) :
    (calScale inputMax weights α)[j]? = some 0 := by
  rw [calScale_eq_calScaleSpec]
  unfold calScaleSpec
  obtain ⟨x, hx⟩ : ∃ x, inputMax[j]? = some x :=
    ⟨inputMax[j], List.getElem?_eq_getElem hj⟩
  have hzr : (0 : ℝ) ^ (1 - α) = 0 :=
    Real.zero_rpow (by linarith)
  simp [List.getElem?_zipWith', List.getElem?_map, hx, hwm, hzr, hlen]

/-- C2 counterexample: with input max `[1,1]`, weight rows `[[0,1]]` and
`alpha = 1/2`, channel 0 has weight max zero but its computed scale is 0,
not exactly 1.0 as the claim states. -/
theorem calScale_zero_weight_max_counterexample :
    (calScale [1, 1] [[[0, 1]]] ((1 : ℝ)/2))[0]? = some 0 ∧ (0 : ℝ) ≠ 1 := by
  have habs : colAbsMax (catDim0 [[[(0 : ℝ), 1]]]) = [0, 1] := by
    simp [colAbsMax, catDim0]
  have hexp : (1 : ℝ) - 1/2 = 1/2 := by norm_num
  have hz : (0 : ℝ) ^ ((1 : ℝ)/2) = 0 := Real.zero_rpow (by norm_num)
  constructor
  · simp only [calScale, habs, hexp, List.map, Real.one_rpow, hz, List.zipWith,
      List.length_cons, List.length_nil]
    norm_num
  · norm_num

/-- C2 witness: the amended theorem applied at input max `[1,1]`, weights
`[[[0,1]]]`, `alpha = 1/2` and channel 0. -/
theorem calScale_zero_weight_max_witness :
    (calScale [1, 1] [[[0, 1]]] ((1 : ℝ)/2))[0]? = some 0 := by
  have habs : colAbsMax (catDim0 [[[(0 : ℝ), 1]]]) = [0, 1] := by
    simp [colAbsMax, catDim0]
  exact calScale_zero_weight_max [1, 1] [[[0, 1]]] ((1 : ℝ)/2) (by norm_num)
    (by simp [habs]) 0 (by norm_num) (by simp [habs])

/-! ### Linear layers and the smooth-quant linear wrapper -/

/-- Forward pass of `torch.nn.Linear` on a single sample: each output channel
is the dot product of its weight row with the input, plus the optional bias. -/
noncomputable def linearForward (weight : Tensor2) (bias : Option Tensor1) (x : Tensor1) :
    Tensor1 :=
  let y := weight.map (fun row => (List.zipWith (· * ·) row x).sum)
  match bias with
  | none => y
  | some b => List.zipWith (· + ·) y b

/-- Embedding of `SQLinearWrapper.__init__` plus `_update_sq_linear`: the
wrapper stores `input_scale` and divides the wrapped linear weight by the
scale, broadcast over input channels (`self.sq_linear.weight /= scale` with
`scale.view(1, ic)`).  The quantization parameters (`scale`, `zero_point`)
computed by `_calculate_qparams` are not used on the fp32 forward path and
are not modelled. -/
structure SQLinearWrapper where
  inputScale : Tensor1
  sqWeight : Tensor2
  sqBias : Option Tensor1

noncomputable def mkSQLinearWrapper (weight : Tensor2) (bias : Option Tensor1)
    (inputScale : Tensor1) : SQLinearWrapper :=
  { inputScale := inputScale
    sqWeight := weight.map (fun row => List.zipWith (· / ·) row inputScale)
    sqBias := bias }

/-- Embedding of `SQLinearWrapper.forward` (non-ipex path): multiply the input
elementwise by `input_scale`, then apply the wrapped linear. -/
noncomputable def sqLinearWrapperForward (w : SQLinearWrapper) (x : Tensor1) : Tensor1 :=
  linearForward w.sqWeight w.sqBias (List.zipWith (· * ·) x w.inputScale)

theorem zipWith_div_mul_cancel :
    ∀ (row s x : Tensor1), x.length = s.length → (∀ e ∈ s, e ≠ 0) →
      List.zipWith (· * ·) (List.zipWith (· / ·) row s)
          (List.zipWith (· * ·) x s) =
        List.zipWith (· * ·) row x
  | [], _, _, _, _ => by simp
  | _ :: _, [], x, hlen, _ => by
    simp at hlen
    subst hlen
    rfl
  | _ :: _, _ :: _, [], hlen, _ => by simp at hlen
  | r :: row, e :: s, v :: x, hlen, hnz => by
    have he : e ≠ 0 := hnz e (by simp)
    have ih := zipWith_div_mul_cancel row s x (by simpa using hlen)
      (fun u hu => hnz u (by simp [hu]))
    simp only [List.zipWith, ih, List.cons.injEq, and_true]
    field_simp
    ring

/-- C5: for every linear module, every per-channel scale vector with strictly
positive entries and every input of matching width, the smooth-quant linear
wrapper (weight divided by the scale at construction, input multiplied by the
scale at forward time) computes exactly the same output as the original
module in exact real arithmetic. -/
theorem sqLinearWrapper_preserves_output (weight : Tensor2)
    (bias : Option Tensor1) (inputScale : Tensor1) (x : Tensor1)
    (hpos : ∀ e ∈ inputScale, 0 < e) (hlen : x.length = inputScale.length) :
    sqLinearWrapperForward (mkSQLinearWrapper weight bias inputScale) x =
      linearForward weight bias x := by
  have hnz : ∀ e ∈ inputScale, e ≠ 0 := fun e he => ne_of_gt (hpos e he)
  unfold sqLinearWrapperForward mkSQLinearWrapper linearForward
  simp only [List.map_map]
  have hrow : ∀ row : Tensor1,
      (List.zipWith (· * ·) (List.zipWith (· / ·) row inputScale)
        (List.zipWith (· * ·) x inputScale)).sum =
      (List.zipWith (· * ·) row x).sum := by
    intro row
    rw [zipWith_div_mul_cancel row inputScale x hlen hnz]
  cases bias with
  | none =>
    simp only []
    apply List.map_congr_left
    intro row _
    exact hrow row
  | some b =>
    simp only []
    congr 1
    apply List.map_congr_left
    intro row _
    exact hrow row

/-- C5 witness: wrapper equivalence at weight `[[4]]`, bias `[5]`, scale `[2]`
and input `[3]`. -/
theorem sqLinearWrapper_preserves_output_witness :
    sqLinearWrapperForward (mkSQLinearWrapper [[4]] (some [5]) [2]) [3] =
      linearForward [[(4 : ℝ)]] (some [5]) [3] :=
  sqLinearWrapper_preserves_output [[4]] (some [5]) [2] [3]
    (by intro e he; simp at he; norm_num [he]) (by simp)

/-! ### Calibration: per-channel running min and max -/

/-- Column-wise minimum over the rows of a (reshaped) batch, the embedding of
`torch.min(input, dim=0)[0]`; empty batches (which raise in torch) give the
empty tensor. -/
noncomputable def colMin (rows : List Tensor1) : Tensor1 :=
  match rows with
  | [] => []
  | r :: rs => rs.foldl (List.zipWith min) r

/-- Column-wise maximum over the rows of a (reshaped) batch, the embedding of
`torch.max(input, dim=0)[0]`. -/
noncomputable def colMax (rows : List Tensor1) : Tensor1 :=
  match rows with
  | [] => []
  | r :: rs => rs.foldl (List.zipWith max) r

/-- Embedding of the body of `Calibration._save_input_pc_hook` for one layer:
the state is the stored per-channel `(min, max)` pair (or nothing before the
first observed batch); a batch arrives already reshaped to rows over the
channel dimension (the hook reshape is deterministic per batch).  The first
batch initialises the record, later batches merge elementwise. -/
noncomputable def saveInputPCHook (st : Option (Tensor1 × Tensor1)) (batch : List Tensor1) :
    Option (Tensor1 × Tensor1) :=
  let mn := colMin batch
  let mx := colMax batch
  match st with
  | none => some (mn, mx)
  | some (m, M) => some (List.zipWith min m mn, List.zipWith max M mx)

/-- Folding the hook over a calibration run. -/
noncomputable def calibrationAccumulate (batches : List (List Tensor1)) :
    Option (Tensor1 × Tensor1) :=
  batches.foldl saveInputPCHook none

theorem zipWith_min_comm (a b : Tensor1) :
    List.zipWith min a b = List.zipWith min b a :=
  List.zipWith_comm_of_comm min min_comm a b

theorem zipWith_max_comm (a b : Tensor1) :
    List.zipWith max a b = List.zipWith max b a :=
  List.zipWith_comm_of_comm max max_comm a b

theorem zipWith_min_right_comm :
    ∀ (a b c : Tensor1),
      List.zipWith min (List.zipWith min a b) c =
        List.zipWith min (List.zipWith min a c) b
  | [], _, _ => by simp
  | _ :: _, [], c => by cases c <;> rfl
  | _ :: _, _ :: _, [] => rfl
  | x :: a, y :: b, z :: c => by
    simp only [List.zipWith, zipWith_min_right_comm a b c, List.cons.injEq,
      and_true]
    exact min_right_comm x y z

theorem zipWith_max_right_comm :
    ∀ (a b c : Tensor1),
      List.zipWith max (List.zipWith max a b) c =
        List.zipWith max (List.zipWith max a c) b
  | [], _, _ => by simp
  | _ :: _, [], c => by cases c <;> rfl
  | _ :: _, _ :: _, [] => rfl
  | x :: a, y :: b, z :: c => by
    simp only [List.zipWith, zipWith_max_right_comm a b c, List.cons.injEq,
      and_true]
    rw [max_assoc, max_comm y z, ← max_assoc]

theorem saveInputPCHook_right_comm (st : Option (Tensor1 × Tensor1))
    (b₁ b₂ : List Tensor1) :
    saveInputPCHook (saveInputPCHook st b₁) b₂ =
      saveInputPCHook (saveInputPCHook st b₂) b₁ := by
  cases st with
  | none =>
    simp only [saveInputPCHook, Option.some.injEq, Prod.mk.injEq]
    exact ⟨zipWith_min_comm _ _, zipWith_max_comm _ _⟩
  | some p =>
    obtain ⟨m, M⟩ := p
    simp only [saveInputPCHook, Option.some.injEq, Prod.mk.injEq]
    exact ⟨zipWith_min_right_comm m _ _, zipWith_max_right_comm M _ _⟩

/-- C6: calibration min/max accumulation is order independent — feeding the
same batches through the observation hook in any permutation yields identical
final per-channel running min and max tensors. -/
theorem calibrationAccumulate_perm_invariant (batches batches' : List (List Tensor1))
    (hperm : batches.Perm batches') :
    calibrationAccumulate batches = calibrationAccumulate batches' :=
  hperm.foldl_eq'
    (fun b₁ _ b₂ _ st => saveInputPCHook_right_comm st b₁ b₂) none

/-- C6 witness: two concrete single-row batches fed in both orders give the
same accumulated per-channel min and max. -/
theorem calibrationAccumulate_perm_invariant_witness :
    calibrationAccumulate [[[1, 2]], [[3, 0]]] =
      calibrationAccumulate [[[3, 0]], [[1, 2]]] :=
  calibrationAccumulate_perm_invariant [[[1, 2]], [[3, 0]]] [[[3, 0]], [[1, 2]]]
    (List.Perm.swap _ _ _)

/-! ### Graph tracer: filtering unsupported layers -/

/-- The information about a module that `remove_unsupported_layers` inspects:
its class name and, for `Conv2d`, the group structure checked by
`_check_valid_conv`. -/
structure ModuleInfo where
  className : String
  convGroups : ℕ := 1
  convInChannels : ℕ := 0
  convOutChannels : ℕ := 0
deriving DecidableEq

/-- The keys of `GraphTrace.supported_torch_module_to_aten`. -/
def supportedModuleClasses : List String :=
  ["Linear", "Conv2d", "ConvTranspose2d", "LayerNorm", "BatchNorm2d",
   "GroupNorm", "InstanceNorm2d", "LlamaRMSNorm", "T5LayerNorm", "LPLayerNorm"]

/-- Embedding of `GraphTrace._check_valid_conv`: group convolutions are only
kept when depthwise (`in_channels == out_channels == groups`); everything
that is not a `Conv2d` passes. -/
def checkValidConv (m : ModuleInfo) : Bool :=
  if m.className = "Conv2d" then
    if m.convGroups > 1 then
      m.convInChannels == m.convOutChannels && m.convGroups == m.convInChannels
    else true
  else true

/-- A downstream layer passes the filter when its class is supported and the
depthwise-conv check holds. -/
def layerSupported (m : ModuleInfo) : Bool :=
  supportedModuleClasses.contains m.className && checkValidConv m

/-- Association-list lookup, the embedding of python dict access. -/
def alookup {α : Type} : List (String × α) → String → Option α
  | [], _ => none
  | e :: es, k => if e.1 = k then some e.2 else alookup es k

/-- Dictionary insertion on an association list: replace the value in place
when the key exists (as a python dict does), append otherwise. -/
def dinsert {α : Type} (d : List (String × α)) (k : String) (v : α) :
    List (String × α) :=
  if (alookup d k).isSome then
    d.map (fun p => if p.1 = k then (k, v) else p)
  else d ++ [(k, v)]

/-- The loop body of `GraphTrace.remove_unsupported_layers`: a group whose
absorb layer has an unsupported class, or any of whose downstream layers is
unsupported (or fails the conv check), is dropped and its downstream layers
are appended to the no-absorb list; otherwise the group is copied into the
result dict. -/
def ruStep (model : String → ModuleInfo)
    (acc : List (String × List String) × List String)
    (e : String × List String) :
    List (String × List String) × List String :=
  if supportedModuleClasses.contains (model e.1).className then
    if e.2.all (fun n => layerSupported (model n)) then
      (dinsert acc.1 e.1 e.2, acc.2)
    else (acc.1, acc.2 ++ e.2)
  else (acc.1, acc.2 ++ e.2)

/-- Embedding of `GraphTrace.remove_unsupported_layers`: models are read only
through their per-name module info; the fold mirrors the source loop, the
result dict starting empty and the no-absorb list extending the passed one. -/
def removeUnsupportedLayers (model : String → ModuleInfo)
    (absorbToLayer : List (String × List String)) (noAbsorbLayers : List String) :
    List (String × List String) × List String :=
  absorbToLayer.foldl (ruStep model) ([], noAbsorbLayers)

theorem dinsert_mem {α : Type} (d : List (String × α)) (k : String) (v : α) :
    ∀ p ∈ dinsert d k v, p ∈ d ∨ p = (k, v) := by
  intro p hp
  unfold dinsert at hp
  split at hp
  · obtain ⟨q, hq, hpq⟩ := List.mem_map.mp hp
    by_cases hqk : q.1 = k
    · right
      rw [← hpq, if_pos hqk]
    · left
      rw [← hpq, if_neg hqk]
      exact hq
  · rcases List.mem_append.mp hp with h | h
    · exact Or.inl h
    · right
      simpa using h

/-- The no-absorb accumulator only ever grows during the fold. -/
theorem removeUnsupported_noAbsorb_mono (model : String → ModuleInfo) :
    ∀ (l : List (String × List String))
      (acc : List (String × List String) × List String),
      ∃ t, (l.foldl (ruStep model) acc).2 = acc.2 ++ t
  | [], acc => ⟨[], by simp⟩
  | e :: l, acc => by
    have hstep : ∃ s, (ruStep model acc e).2 = acc.2 ++ s := by
      unfold ruStep
      split
      · split
        · exact ⟨[], by simp⟩
        · exact ⟨e.2, rfl⟩
      · exact ⟨e.2, rfl⟩
    obtain ⟨s, hs⟩ := hstep
    obtain ⟨t, ht⟩ := removeUnsupported_noAbsorb_mono model l (ruStep model acc e)
    exact ⟨s ++ t, by rw [List.foldl_cons, ht, hs, List.append_assoc]⟩

/-- Every entry of the result dict either was in the accumulator already or
comes from the input map with only supported downstream layers. -/
theorem removeUnsupported_fold_invariant (model : String → ModuleInfo) :
    ∀ (l : List (String × List String))
      (acc : List (String × List String) × List String)
      (p : String × List String),
      p ∈ (l.foldl (ruStep model) acc).1 →
      p ∈ acc.1 ∨
        (p ∈ l ∧ supportedModuleClasses.contains (model p.1).className = true ∧
          p.2.all (fun n => layerSupported (model n)) = true)
  | [], acc, p => fun hp => Or.inl hp
  | e :: l, acc, p => by
    intro hp
    rw [List.foldl_cons] at hp
    rcases removeUnsupported_fold_invariant model l (ruStep model acc e) p hp
      with h | h
    · unfold ruStep at h
      by_cases h1 : supportedModuleClasses.contains (model e.1).className = true
      · by_cases h2 : e.2.all (fun n => layerSupported (model n)) = true
        · rw [if_pos h1, if_pos h2] at h
          rcases dinsert_mem acc.1 e.1 e.2 p h with h3 | h3
          · exact Or.inl h3
          · right
            refine ⟨by simp [h3], ?_, ?_⟩
            · rw [h3]
              exact h1
            · rw [h3]
              exact h2
        · rw [if_pos h1, if_neg h2] at h
          exact Or.inl h
      · rw [if_neg h1] at h
        exact Or.inl h
    · exact Or.inr ⟨List.mem_cons_of_mem e h.1, h.2⟩

/-- A bad group (unsupported absorb class, or some unsupported downstream
layer) deposits all its downstream layers into the no-absorb accumulator. -/
theorem removeUnsupported_bad_in_noAbsorb (model : String → ModuleInfo) :
    ∀ (l : List (String × List String))
      (acc : List (String × List String) × List String)
      (p : String × List String), p ∈ l →
      (¬ supportedModuleClasses.contains (model p.1).className = true ∨
        ¬ p.2.all (fun n => layerSupported (model n)) = true) →
      ∀ n ∈ p.2, n ∈ (l.foldl (ruStep model) acc).2
  | [], _, p, hp, _, _ => by simp at hp
  | e :: l, acc, p, hp, hbad, n => by
    intro hn
    rw [List.foldl_cons]
    rcases List.mem_cons.mp hp with hpe | hpl
    · subst hpe
      have hs : (ruStep model acc p).2 = acc.2 ++ p.2 := by
        unfold ruStep
        rcases hbad with hb | hb
        · rw [if_neg hb]
        · by_cases h1 :
            supportedModuleClasses.contains (model p.1).className = true
          · rw [if_pos h1, if_neg hb]
          · rw [if_neg h1]
      obtain ⟨t, ht⟩ := removeUnsupported_noAbsorb_mono model l (ruStep model acc p)
      rw [ht, hs]
      simp [hn]
    · exact removeUnsupported_bad_in_noAbsorb model l (ruStep model acc e) p hpl
        hbad n hn

/-- C8: after filtering, every downstream layer listed in the returned
absorb-to-layer map is of a supported type and passes the depthwise-conv
check; and every group containing an unsupported layer (its absorb layer has
an unsupported class, or some downstream layer is unsupported or fails the
conv check) is removed from the map, its downstream layers appended to the
no-absorb list. -/
theorem removeUnsupportedLayers_invariant (model : String → ModuleInfo)
    (absorbToLayer : List (String × List String)) (noAbsorbLayers : List String)
    (hkeys : (absorbToLayer.map Prod.fst).Nodup) :
    (∀ p ∈ (removeUnsupportedLayers model absorbToLayer noAbsorbLayers).1,
      ∀ n ∈ p.2, layerSupported (model n) = true) ∧
    (∀ p ∈ absorbToLayer,
      (¬ supportedModuleClasses.contains (model p.1).className = true ∨
        ∃ n ∈ p.2, ¬ layerSupported (model n) = true) →
      (∀ q ∈ (removeUnsupportedLayers model absorbToLayer noAbsorbLayers).1,
          q.1 ≠ p.1) ∧
        ∀ n ∈ p.2, n ∈ (removeUnsupportedLayers model absorbToLayer noAbsorbLayers).2) := by
  constructor
  · intro p hp n hn
    rcases removeUnsupported_fold_invariant model absorbToLayer
        ([], noAbsorbLayers) p hp with h | h
    · simp at h
    · exact List.all_eq_true.mp h.2.2 n hn
  · intro p hp hbad
    have hbad' : ¬ supportedModuleClasses.contains (model p.1).className = true ∨
        ¬ p.2.all (fun n => layerSupported (model n)) = true := by
      rcases hbad with hb | hb
      · exact Or.inl hb
      · right
        obtain ⟨n, hn, hnb⟩ := hb
        intro hall
        exact hnb (List.all_eq_true.mp hall n hn)
    constructor
    · intro q hq
      rcases removeUnsupported_fold_invariant model absorbToLayer
          ([], noAbsorbLayers) q hq with h | h
      · simp at h
      · intro hqp
        have hpq : q = p :=
          List.inj_on_of_nodup_map hkeys h.1 hp hqp
        rcases hbad' with hb | hb
        · rw [hpq] at h
          exact hb h.2.1
        · rw [hpq] at h
          exact hb h.2.2
    · exact removeUnsupported_bad_in_noAbsorb model absorbToLayer
        ([], noAbsorbLayers) p hp hbad'

/-- The witness model: a supported group (`LayerNorm` feeding a `Linear`)
and a bad group (a non-depthwise grouped `Conv2d` downstream of a
`BatchNorm2d`). -/
def modelC8 : String → ModuleInfo := fun n =>
  if n = "ln" then { className := "LayerNorm" }
  else if n = "fc" then { className := "Linear" }
  else if n = "bn" then { className := "BatchNorm2d" }
  else { className := "Conv2d", convGroups := 4, convInChannels := 8,
         convOutChannels := 16 }

/-- C8 witness: in the concrete model, the group of the invalid grouped
convolution is deposited in the no-absorb list. -/
theorem removeUnsupportedLayers_invariant_witness :
    "gconv" ∈ (removeUnsupportedLayers modelC8
      [("ln", ["fc"]), ("bn", ["gconv"])] []).2 :=
  ((removeUnsupportedLayers_invariant modelC8
      [("ln", ["fc"]), ("bn", ["gconv"])] [] (by simp)).2
    ("bn", ["gconv"]) (by simp)
    (Or.inr ⟨"gconv", by simp,
      by simp [modelC8, layerSupported, checkValidConv,
        supportedModuleClasses]⟩)).2 "gconv" (by simp)

/-! ### Random tuning strategy -/

/-- An operator configuration assigns a quantization mode to every operator
name. -/
abbrev OpAssignment := String → String

/-- Modelled from the spec: `OpWiseTuningSampler`
(`neural_compressor/strategy/st_utils/tuning_sampler.py`) is not among the
sources; per the specification the op-wise sampler yields, for each operator
in the supplied ordering, a configuration where exactly one operator is set
to each of its legal quantization modes in turn while all others remain at
the baseline (three operators supporting int8 and fp32 with an all-fp32
baseline yield exactly three candidates). -/
def opWiseConfigs (ops : List (String × List String)) (baseline : OpAssignment) :
    List OpAssignment :=
  ops.flatMap (fun e =>
    (e.2.filter (fun m => m ≠ baseline e.1)).map
      (fun m => fun o => if o = e.1 then m else baseline o))

/-- Modelled from the spec: the full per-operator product space of
configurations, one independent mode choice per operator. -/
def productConfigs (ops : List (String × List String)) (baseline : OpAssignment) :
    List OpAssignment :=
  ops.foldr
    (fun e acc =>
      e.2.flatMap (fun m => acc.map (fun c => fun o => if o = e.1 then m else c o)))
    [baseline]

/-- Embedding of the `while True` loop of `RandomTuneStrategy.next_tune_cfg`:
the nth yielded configuration pairs a calibration sampling size drawn from
the calibration option list with an operator configuration drawn from the
precomputed candidate list.  `np.random.choice(cnt)` is modelled by an oracle
stream of naturals reduced mod `cnt` (`choice` on an empty range raises, so
the draw is `none` when either list is empty). -/
def randomNextTuneCfg (calibSizes : List ℕ) (cfgLst : List OpAssignment)
    (oracle : ℕ → ℕ × ℕ) (n : ℕ) : Option (ℕ × OpAssignment) :=
  if calibSizes.isEmpty || cfgLst.isEmpty then none
  else
    some (calibSizes.getD ((oracle n).1 % calibSizes.length) 0,
      cfgLst.getD ((oracle n).2 % cfgLst.length) (fun _ => ""))

/-- C9, amended: the random strategy generator never terminates — for every
index `n` it yields a configuration — and on every iteration it draws,
from the fresh oracle values alone (no memory of prior draws), a calibration
sampling size from the calibration option list and an operator configuration
from the precomputed op-wise candidate list (not the full product space). -/
theorem randomNextTuneCfg_total_memoryless (calibSizes : List ℕ)
    (ops : List (String × List String)) (baseline : OpAssignment)
    (oracle : ℕ → ℕ × ℕ) (n : ℕ) (hc : calibSizes ≠ [])
    (ho : opWiseConfigs ops baseline ≠ []) :
    (∃ c, randomNextTuneCfg calibSizes (opWiseConfigs ops baseline) oracle n =
        some c ∧ c.1 ∈ calibSizes ∧ c.2 ∈ opWiseConfigs ops baseline) ∧
    (∀ oracle' : ℕ → ℕ × ℕ, oracle n = oracle' n →
      randomNextTuneCfg calibSizes (opWiseConfigs ops baseline) oracle n =
        randomNextTuneCfg calibSizes (opWiseConfigs ops baseline) oracle' n) := by
  constructor
  · have hc' : ¬ calibSizes.isEmpty := by simpa [List.isEmpty_iff] using hc
    have ho' : ¬ (opWiseConfigs ops baseline).isEmpty := by
      simpa [List.isEmpty_iff] using ho
    refine ⟨(calibSizes.getD ((oracle n).1 % calibSizes.length) 0,
        (opWiseConfigs ops baseline).getD
          ((oracle n).2 % (opWiseConfigs ops baseline).length) (fun _ => "")),
        ?_, ?_, ?_⟩
    · unfold randomNextTuneCfg
      rw [Bool.not_eq_true] at hc' ho'
      rw [hc', ho']
      rfl
    · have hlt : (oracle n).1 % calibSizes.length < calibSizes.length :=
        Nat.mod_lt _ (List.length_pos.mpr hc)
      rw [List.getD_eq_getElem _ _ hlt]
      exact List.getElem_mem hlt
    · have hlt : (oracle n).2 % (opWiseConfigs ops baseline).length <
          (opWiseConfigs ops baseline).length :=
        Nat.mod_lt _ (List.length_pos.mpr ho)
      rw [List.getD_eq_getElem _ _ hlt]
      exact List.getElem_mem hlt
  · intro oracle' hor
    unfold randomNextTuneCfg
    rw [hor]

/-- C9 witness: with calibration sizes `[100]`, three operators each
supporting int8 and fp32, an all-fp32 baseline and a constant oracle, the
draw at step 0 exists, is memoryless and lands in the two option lists. -/
theorem randomNextTuneCfg_total_memoryless_witness :
    ∃ c, randomNextTuneCfg [100]
        (opWiseConfigs
          [("op1", ["int8", "fp32"]), ("op2", ["int8", "fp32"]),
           ("op3", ["int8", "fp32"])] (fun _ => "fp32"))
        (fun _ => (0, 0)) 0 = some c ∧ c.1 ∈ [100] ∧
        c.2 ∈ opWiseConfigs
          [("op1", ["int8", "fp32"]), ("op2", ["int8", "fp32"]),
           ("op3", ["int8", "fp32"])] (fun _ => "fp32") :=
  (randomNextTuneCfg_total_memoryless [100]
    [("op1", ["int8", "fp32"]), ("op2", ["int8", "fp32"]),
     ("op3", ["int8", "fp32"])] (fun _ => "fp32") (fun _ => (0, 0)) 0
    (by simp) (by simp [opWiseConfigs])).1

/-- C9 counterexample: with three operators each supporting int8 and fp32 and
an all-fp32 baseline, the op-wise candidate list the random strategy draws
from has exactly 3 elements and contains no configuration assigning int8 to
all three operators, although the per-operator product space does contain
one.  So the draws are not from the full product space. -/
theorem randomNextTuneCfg_not_product_space_counterexample :
    (opWiseConfigs
      [("op1", ["int8", "fp32"]), ("op2", ["int8", "fp32"]),
       ("op3", ["int8", "fp32"])] (fun _ => "fp32")).length = 3 ∧
    ((opWiseConfigs
      [("op1", ["int8", "fp32"]), ("op2", ["int8", "fp32"]),
       ("op3", ["int8", "fp32"])] (fun _ => "fp32")).all
        (fun c => !(c "op1" == "int8" && c "op2" == "int8" && c "op3" == "int8"))
      = true) ∧
    ((productConfigs
      [("op1", ["int8", "fp32"]), ("op2", ["int8", "fp32"]),
       ("op3", ["int8", "fp32"])] (fun _ => "fp32")).any
        (fun c => c "op1" == "int8" && c "op2" == "int8" && c "op3" == "int8")
      = true) := by
  refine ⟨?_, ?_, ?_⟩
  · simp [opWiseConfigs]
  · simp [opWiseConfigs]
  · simp [productConfigs]

/-! ### Calibration-needed check -/

/-- The `alpha` argument of `TorchSmoothQuant.transform`: either the string
"auto" or a fixed float value. -/
inductive AlphaArg : Type
  | auto : AlphaArg
  | val : ℝ → AlphaArg

/-- Whether `alpha == "auto"`. -/
def AlphaArg.isAuto : AlphaArg → Bool
  | .auto => true
  | .val _ => false

/-- Whether `isinstance(alpha, float)`. -/
def AlphaArg.isFloat : AlphaArg → Bool
  | .auto => false
  | .val _ => true

/-- The calibration parameters cached on the component by
`_check_need_calibration`. -/
structure CalibParams where
  alphaC : AlphaArg
  percentileC : ℝ
  opTypesC : List String
  scalesPerOpC : Bool
  calibIterC : ℕ

/-- The slice of `TorchSmoothQuant` state read by `_check_need_calibration`:
the collected per-layer input maxima and the previously cached parameters
(absent before the first call). -/
structure CalibCheckState where
  inputMaxes : List (String × Tensor1)
  cached : Option CalibParams

open Classical in
/-- Embedding of `TorchSmoothQuant._check_need_calibration`: on the first
call (no input statistics yet) it records the parameters and returns True,
except that it returns False when alpha is "auto" and the model is not a
PEFT model; on later calls it compares the cached parameters and skips
calibration when they match and alpha is a float or the cached alpha was
"auto"; it then records the current parameters. -/
noncomputable def checkNeedCalibration (st : CalibCheckState) (alpha : AlphaArg)
    (percentile : ℝ) (opTypes : List String) (scalesPerOp : Bool)
    (calibIter : ℕ) (isPeft : Bool) : Bool × CalibCheckState :=
  let params : CalibParams :=
    ⟨alpha, percentile, opTypes, scalesPerOp, calibIter⟩
  if st.inputMaxes.isEmpty then
    (if alpha.isAuto && !isPeft then false else true,
      { st with cached := some params })
  else
    let needCalib :=
      match st.cached with
      | some c =>
        if c.percentileC = percentile ∧ c.opTypesC = opTypes ∧
            c.scalesPerOpC = scalesPerOp ∧ c.calibIterC = calibIter then
          if alpha.isFloat || c.alphaC.isAuto then false else true
        else true
      | none => true
    (needCalib, { st with cached := some params })

/-- C10: on the very first call (empty `input_maxes`) `_check_need_calibration`
returns False exactly when alpha is "auto" and the model is not a PEFT model
(and True in every other first-call case), after recording alpha, percentile,
op_types, scales_per_op and calib_iter as the cached parameters. -/
theorem checkNeedCalibration_first_call (st : CalibCheckState)
    (alpha : AlphaArg) (percentile : ℝ) (opTypes : List String)
    (scalesPerOp : Bool) (calibIter : ℕ) (isPeft : Bool)
    (hfirst : st.inputMaxes = []) :
    ((checkNeedCalibration st alpha percentile opTypes scalesPerOp calibIter
        isPeft).1 = false ↔ alpha.isAuto = true ∧ isPeft = false) ∧
    (checkNeedCalibration st alpha percentile opTypes scalesPerOp calibIter
        isPeft).2.cached =
      some ⟨alpha, percentile, opTypes, scalesPerOp, calibIter⟩ := by
  unfold checkNeedCalibration
  rw [hfirst]
  constructor
  · by_cases ha : alpha.isAuto = true
    · by_cases hp : isPeft = true
      · simp [ha, hp]
      · have hp' : isPeft = false := by
          revert hp
          cases isPeft <;> simp
        simp [ha, hp']
    · have ha' : alpha.isAuto = false := by
        revert ha
        cases alpha.isAuto <;> simp
      simp [ha']
  · simp

/-- C10 witness: the first-call behaviour at concrete arguments — alpha auto
on a non-PEFT model skips calibration and caches the parameters. -/
theorem checkNeedCalibration_first_call_witness :
    ((checkNeedCalibration ⟨[], none⟩ AlphaArg.auto 100 ["Linear"] false 100
        false).1 = false ↔ AlphaArg.auto.isAuto = true ∧ false = false) ∧
    (checkNeedCalibration ⟨[], none⟩ AlphaArg.auto 100 ["Linear"] false 100
        false).2.cached =
      some ⟨AlphaArg.auto, 100, ["Linear"], false, 100⟩ :=
  checkNeedCalibration_first_call ⟨[], none⟩ AlphaArg.auto 100 ["Linear"]
    false 100 false rfl

/-! ### The smooth-quant transform on models

A model is read and mutated only through `get_module`/`set_module` by dotted
name, so we embed it as a total map from names to layers.  The fold-mode
transform touches `Linear` layers (downstream) and normalization layers
(absorbing); we embed the `Linear`/`LayerNorm` fragment exercised by the
transform. -/

/-- A named submodule of the model. -/
inductive SQLayer : Type
  | linear (weight : Tensor2) (bias : Option Tensor1)
  | layerNorm (weight : Tensor1) (bias : Tensor1)

abbrev Model := String → SQLayer

/-- Embedding of `set_module`: replace the layer stored under a name. -/
def updateModel (m : Model) (n : String) (l : SQLayer) : Model :=
  fun x => if x = n then l else m x

/-- Embedding of `reshape_in_channel_to_last`: a Linear weight is already
out-channels by in-channels; a 1-D LayerNorm weight is returned as a single
row (only Linear layers occur downstream in the claims). -/
def reshapeInChannelToLast : SQLayer → Tensor2
  | .linear w _ => w
  | .layerNorm w _ => [w]

/-- Weight scaling of a downstream layer (`_scale_layer_weight`, fold mode):
for a Linear layer the scale is reshaped to `(1, in_channels)` and multiplies
the weight column-wise; for a 1-D weight it multiplies elementwise. -/
def scaleFoldLayer : SQLayer → Tensor1 → SQLayer
  | .linear w b, s => .linear (w.map (fun row => List.zipWith (· * ·) row s)) b
  | .layerNorm w b, s => .layerNorm (List.zipWith (· * ·) w s) b

/-- Absorbing a scale at output channels (`_absorb_scales`): a LayerNorm (with
affine parameters) multiplies weight and bias elementwise; a Linear layer
multiplies its bias elementwise and its weight row-wise (scale viewed as
`(out_channels, 1)`). -/
def absorbLayer : SQLayer → Tensor1 → SQLayer
  | .layerNorm w b, s =>
      .layerNorm (List.zipWith (· * ·) w s) (List.zipWith (· * ·) b s)
  | .linear w b, s =>
      .linear (List.zipWith (fun si row => row.map (si * ·)) s w)
        (b.map (fun bv => List.zipWith (· * ·) bv s))

/-- `TorchSmoothQuant._scale_layer_weight` in fold mode
(`insert_mul = False`, `allow_absorb = True`). -/
def scaleLayerWeight (m : Model) (n : String) (s : Tensor1) : Model :=
  updateModel m n (scaleFoldLayer (m n) s)

/-- `TorchSmoothQuant._absorb_scales` in fold mode. -/
def absorbScalesAt (m : Model) (n : String) (s : Tensor1) : Model :=
  updateModel m n (absorbLayer (m n) s)

/-- Dict access with the empty tensor as junk for a missing key. -/
def lookupD (d : List (String × Tensor1)) (k : String) : Tensor1 :=
  (alookup d k).getD []

/-- The absorb scale stored for a key: `1.0 / scale` with positions where
`scale == 0` forced to 0 (`_cal_scales`, lines building
`absorb_scales_info[key]`). -/
noncomputable def absorbScaleOfScale (scale : Tensor1) : Tensor1 :=
  List.zipWith (fun s v => if s = 0 then 0 else v) scale
    (scale.map (fun x => 1 / x))

namespace TorchSmoothQuant

/-- The scale computed for one absorb group: `cal_scale` applied to the input
max of the first downstream layer and the reshaped weights of all downstream
layers of the group. -/
noncomputable def scaleOf (model : Model) (inputMaxes : String → Tensor1)
    (α : ℝ) (e : String × List String) : Tensor1 :=
  calScale (inputMaxes (e.2.headD ""))
    (e.2.map (fun n => reshapeInChannelToLast (model n))) α

/-- Embedding of `TorchSmoothQuant._cal_scales`: for each absorb group the
group scale is computed from the pre-transform model, the absorb-scale dict
maps the absorb key to the guarded reciprocal scale and the weight-scale dict
maps every downstream layer to the group scale. -/
noncomputable def calScales (model : Model)
    (absorbToLayer : List (String × List String))
    (inputMaxes : String → Tensor1) (α : ℝ) :
    List (String × Tensor1) × List (String × Tensor1) :=
  absorbToLayer.foldl
    (fun acc e =>
      (dinsert acc.1 e.1 (absorbScaleOfScale (scaleOf model inputMaxes α e)),
        e.2.foldl (fun d n => dinsert d n (scaleOf model inputMaxes α e)) acc.2))
    ([], [])

/-- The mutation loop of `TorchSmoothQuant._adjust_parameters`: for each
group, absorb the stored absorb scale into the absorb layer, then scale every
downstream layer weight by its stored weight scale. -/
noncomputable def applyScales (m : Model)
    (absorbToLayer : List (String × List String))
    (asi wsi : List (String × Tensor1)) : Model :=
  absorbToLayer.foldl
    (fun mm e =>
      e.2.foldl (fun m2 n => scaleLayerWeight m2 n (lookupD wsi n))
        (absorbScalesAt mm e.1 (lookupD asi e.1))) m

/-- Embedding of `TorchSmoothQuant._adjust_parameters`: compute both scale
dicts, return unchanged when either is empty, else mutate the model. -/
noncomputable def adjustParameters (m : Model)
    (absorbToLayer : List (String × List String))
    (inputMaxes : String → Tensor1) (α : ℝ) :
    Model × List (String × Tensor1) × List (String × Tensor1) :=
  let scales := calScales m absorbToLayer inputMaxes α
  if scales.1.isEmpty || scales.2.isEmpty then (m, scales.2, scales.1)
  else (applyScales m absorbToLayer scales.1 scales.2, scales.2, scales.1)

/-- The `TorchSmoothQuant` state the fold transform reads and writes: the
model and the two scale-record dicts kept for `revert`. -/
structure SQState where
  model : Model
  weightScaleInfo : List (String × Tensor1)
  absorbScalesInfo : List (String × Tensor1)

/-- Embedding of `TorchSmoothQuant.revert`: reapply the reciprocal of every
recorded weight scale and absorb scale, then clear both records. -/
noncomputable def revert (st : SQState) : SQState :=
  let m1 := st.weightScaleInfo.foldl
    (fun m e =>
      scaleLayerWeight m e.1
        ((lookupD st.weightScaleInfo e.1).map (fun x => 1 / x)))
    st.model
  let m2 := st.absorbScalesInfo.foldl
    (fun m e =>
      absorbScalesAt m e.1
        ((lookupD st.absorbScalesInfo e.1).map (fun x => 1 / x)))
    m1
  ⟨m2, [], []⟩

/-- Embedding of the fold-mode weight path of `TorchSmoothQuant.transform`
(`folding=True`, fixed float alpha, `record_max_info=False`): revert any
earlier transform, then — when the graph trace produced an absorb map —
adjust the parameters and store the scale records.  Calibration statistics
enter as the explicit `inputMaxes` argument, and the traced absorb map enters
as an `Option` (`None` when tracing failed). -/
noncomputable def transform (st : SQState)
    (absorbOpt : Option (List (String × List String)))
    (inputMaxes : String → Tensor1) (α : ℝ) : SQState :=
  let st1 := revert st
  match absorbOpt with
  | none => st1
  | some a2l =>
      let r := adjustParameters st1.model a2l inputMaxes α
      ⟨r.1, r.2.1, r.2.2⟩

end TorchSmoothQuant

/-- Embedding of the head of `GraphTrace.get_absorb_to_layer`: when the jit
trace failed (`trace` returned `None` after catching the exception) the
result is `(None, None)`; otherwise the absorb map and no-absorb list are
extracted from the traced graph (the extraction, which walks the jit graph,
is abstracted as a function of the traced graph). -/
def getAbsorbToLayerResult {Γ : Type}
    (tracedModel : Option Γ)
    (extract : Γ → List (String × List String) × List String) :
    Option (List (String × List String)) × Option (List String) :=
  match tracedModel with
  | none => (none, none)
  | some g => (some (extract g).1, some (extract g).2)

/-- C7: when jit tracing raises, `GraphTrace.get_absorb_to_layer` returns the
no-trace result `(None, None)`, and `TorchSmoothQuant.transform`, finding no
absorb map, returns the model with its weights unmodified (on a quantizer
whose scale records are empty, the entry `revert` is a no-op), never a
silently transformed result. -/
theorem trace_failure_fallback :
    (∀ (Γ : Type) (extract : Γ → List (String × List String) × List String),
      getAbsorbToLayerResult (none : Option Γ) extract = (none, none)) ∧
    (∀ (st : TorchSmoothQuant.SQState) (inputMaxes : String → Tensor1) (α : ℝ),
      st.weightScaleInfo = [] → st.absorbScalesInfo = [] →
      ∀ n, (TorchSmoothQuant.transform st none inputMaxes α).model n =
        st.model n) := by
  constructor
  · intro Γ extract
    rfl
  · intro st inputMaxes α h1 h2 n
    simp [TorchSmoothQuant.transform, TorchSmoothQuant.revert, h1, h2]

/-- C7 witness: the fallback at a concrete failed trace and a concrete fresh
quantizer state. -/
theorem trace_failure_fallback_witness :
    getAbsorbToLayerResult (none : Option ℕ)
      (fun _ => ([("a", ["b"])], [])) = (none, none) ∧
    (TorchSmoothQuant.transform
      ⟨fun _ => SQLayer.linear [[1]] none, [], []⟩ none (fun _ => [1])
      ((1 : ℝ)/2)).model "x" = SQLayer.linear [[1]] none :=
  ⟨trace_failure_fallback.1 ℕ (fun _ => ([("a", ["b"])], [])),
    trace_failure_fallback.2 ⟨fun _ => SQLayer.linear [[1]] none, [], []⟩
      (fun _ => [1]) ((1 : ℝ)/2) rfl rfl "x"⟩

/-! ### Pointwise lemmas for the transform and revert folds -/

theorem updateModel_same (m : Model) (n : String) (l : SQLayer) :
    updateModel m n l n = l := by
  simp [updateModel]

theorem updateModel_ne (m : Model) (n : String) (l : SQLayer) (x : String)
    (h : x ≠ n) : updateModel m n l x = m x := by
  simp [updateModel, h]

theorem alookup_of_not_mem {α : Type} :
    ∀ (l : List (String × α)) (x : String), x ∉ l.map Prod.fst →
      alookup l x = none
  | [], _, _ => rfl
  | e :: l, x, h => by
    have h1 : e.1 ≠ x := by
      intro he
      exact h (by simp [he])
    simp only [alookup, if_neg h1]
    exact alookup_of_not_mem l x (fun hx => h (by simp [hx]))

theorem alookup_of_mem_nodup {α : Type} :
    ∀ (l : List (String × α)) (x : String) (v : α),
      (l.map Prod.fst).Nodup → (x, v) ∈ l → alookup l x = some v
  | [], _, _, _, hm => by simp at hm
  | e :: l, x, v, hnd, hm => by
    rcases List.mem_cons.mp hm with he | hl
    · rw [← he]
      simp [alookup]
    · have hx : x ∈ l.map Prod.fst := by
        exact List.mem_map_of_mem Prod.fst hl
      have h1 : e.1 ≠ x := by
        intro he1
        have := (List.nodup_cons.mp hnd).1
        exact this (he1 ▸ hx)
      simp only [alookup, if_neg h1]
      exact alookup_of_mem_nodup l x v (List.nodup_cons.mp hnd).2 hl

theorem dinsert_of_not_mem {α : Type} (d : List (String × α)) (k : String)
    (v : α) (h : k ∉ d.map Prod.fst) : dinsert d k v = d ++ [(k, v)] := by
  unfold dinsert
  rw [alookup_of_not_mem d k h]
  rfl

theorem foldl_scaleNames_notmem (wsi : List (String × Tensor1)) :
    ∀ (names : List String) (m : Model) (x : String), x ∉ names →
      (names.foldl (fun m2 n => scaleLayerWeight m2 n (lookupD wsi n)) m) x =
        m x
  | [], _, _, _ => rfl
  | n :: names, m, x, h => by
    rw [List.foldl_cons,
      foldl_scaleNames_notmem wsi names _ x (fun hx => h (by simp [hx]))]
    exact updateModel_ne _ _ _ _ (fun hx => h (by simp [hx]))

theorem foldl_scaleNames_once (wsi : List (String × Tensor1)) :
    ∀ (names : List String) (m : Model) (x : String), names.Nodup →
      x ∈ names →
      (names.foldl (fun m2 n => scaleLayerWeight m2 n (lookupD wsi n)) m) x =
        scaleFoldLayer (m x) (lookupD wsi x)
  | [], _, _, _, hm => by simp at hm
  | n :: names, m, x, hnd, hm => by
    rw [List.foldl_cons]
    rcases List.mem_cons.mp hm with he | hl
    · subst he
      rw [foldl_scaleNames_notmem wsi names _ x (List.nodup_cons.mp hnd).1]
      rw [scaleLayerWeight, updateModel_same]
    · have hx : x ≠ n := by
        intro he1
        exact (List.nodup_cons.mp hnd).1 (he1 ▸ hl)
      rw [foldl_scaleNames_once wsi names _ x (List.nodup_cons.mp hnd).2 hl,
        scaleLayerWeight, updateModel_ne _ _ _ _ hx]

theorem foldl_scaleEntries_notmem (f : String × Tensor1 → Tensor1) :
    ∀ (l : List (String × Tensor1)) (m : Model) (x : String),
      (∀ e ∈ l, e.1 ≠ x) →
      (l.foldl (fun mm e => scaleLayerWeight mm e.1 (f e)) m) x = m x
  | [], _, _, _ => rfl
  | e :: l, m, x, h => by
    rw [List.foldl_cons,
      foldl_scaleEntries_notmem f l _ x (fun e' he' => h e' (by simp [he']))]
    exact updateModel_ne _ _ _ _ (fun hx => h e (by simp) hx.symm)

theorem foldl_scaleEntries_once (f : String × Tensor1 → Tensor1) :
    ∀ (l : List (String × Tensor1)) (m : Model) (x : String) (v : Tensor1),
      (l.map Prod.fst).Nodup → (x, v) ∈ l →
      (l.foldl (fun mm e => scaleLayerWeight mm e.1 (f e)) m) x =
        scaleFoldLayer (m x) (f (x, v))
  | [], _, _, _, _, hm => by simp at hm
  | e :: l, m, x, v, hnd, hm => by
    rw [List.foldl_cons]
    rcases List.mem_cons.mp hm with he | hl
    · have hx1 : e.1 = x := by rw [← he]
      have hnotin : ∀ e' ∈ l, e'.1 ≠ x := by
        intro e' he' hx
        apply (List.nodup_cons.mp hnd).1
        rw [hx1, ← hx]
        exact List.mem_map_of_mem Prod.fst he'
      rw [foldl_scaleEntries_notmem f l _ x hnotin, scaleLayerWeight, hx1,
        updateModel_same, ← he]
    · have hx : x ≠ e.1 := by
        intro he1
        exact (List.nodup_cons.mp hnd).1
          (he1 ▸ List.mem_map_of_mem Prod.fst hl)
      rw [foldl_scaleEntries_once f l _ x v (List.nodup_cons.mp hnd).2 hl,
        scaleLayerWeight, updateModel_ne _ _ _ _ hx]

theorem foldl_absorbEntries_notmem (f : String × Tensor1 → Tensor1) :
    ∀ (l : List (String × Tensor1)) (m : Model) (x : String),
      (∀ e ∈ l, e.1 ≠ x) →
      (l.foldl (fun mm e => absorbScalesAt mm e.1 (f e)) m) x = m x
  | [], _, _, _ => rfl
  | e :: l, m, x, h => by
    rw [List.foldl_cons,
      foldl_absorbEntries_notmem f l _ x (fun e' he' => h e' (by simp [he']))]
    exact updateModel_ne _ _ _ _ (fun hx => h e (by simp) hx.symm)

theorem foldl_absorbEntries_once (f : String × Tensor1 → Tensor1) :
    ∀ (l : List (String × Tensor1)) (m : Model) (x : String) (v : Tensor1),
      (l.map Prod.fst).Nodup → (x, v) ∈ l →
      (l.foldl (fun mm e => absorbScalesAt mm e.1 (f e)) m) x =
        absorbLayer (m x) (f (x, v))
  | [], _, _, _, _, hm => by simp at hm
  | e :: l, m, x, v, hnd, hm => by
    rw [List.foldl_cons]
    rcases List.mem_cons.mp hm with he | hl
    · have hx1 : e.1 = x := by rw [← he]
      have hnotin : ∀ e' ∈ l, e'.1 ≠ x := by
        intro e' he' hx
        apply (List.nodup_cons.mp hnd).1
        rw [hx1, ← hx]
        exact List.mem_map_of_mem Prod.fst he'
      rw [foldl_absorbEntries_notmem f l _ x hnotin, absorbScalesAt, hx1,
        updateModel_same, ← he]
    · have hx : x ≠ e.1 := by
        intro he1
        exact (List.nodup_cons.mp hnd).1
          (he1 ▸ List.mem_map_of_mem Prod.fst hl)
      rw [foldl_absorbEntries_once f l _ x v (List.nodup_cons.mp hnd).2 hl,
        absorbScalesAt, updateModel_ne _ _ _ _ hx]

theorem zipWith_mul_inv_cancel :
    ∀ (w s : Tensor1), w.length = s.length → (∀ x ∈ s, x ≠ 0) →
      List.zipWith (· * ·) (List.zipWith (· * ·) w s)
        (s.map (fun x => 1 / x)) = w
  | [], [], _, _ => rfl
  | _ :: _, [], hlen, _ => by simp at hlen
  | [], _ :: _, hlen, _ => by simp at hlen
  | a :: w, x :: s, hlen, hnz => by
    have hx : x ≠ 0 := hnz x (by simp)
    have ih := zipWith_mul_inv_cancel w s (by simpa using hlen)
      (fun u hu => hnz u (by simp [hu]))
    simp only [List.zipWith, List.map, ih, List.cons.injEq, and_true]
    field_simp

theorem map_mul_inv_cancel (row : Tensor1) (x : ℝ) (hx : x ≠ 0) :
    (row.map (x * ·)).map ((1 / x) * ·) = row := by
  rw [List.map_map]
  have : ((1 / x) * ·) ∘ (x * ·) = id := by
    funext v
    simp only [Function.comp_apply, id]
    field_simp
  rw [this, List.map_id]

/-- Scaling a Linear weight column-wise by `s` and then by the reciprocal of
`s` restores the weight exactly. -/
theorem scaleFoldLayer_roundtrip_linear (W : Tensor2) (b : Option Tensor1)
    (s : Tensor1) (hrows : ∀ row ∈ W, row.length = s.length)
    (hnz : ∀ x ∈ s, x ≠ 0) :
    scaleFoldLayer (scaleFoldLayer (SQLayer.linear W b) s)
      (s.map (fun x => 1 / x)) = SQLayer.linear W b := by
  simp only [scaleFoldLayer, List.map_map, SQLayer.linear.injEq, and_true]
  conv_rhs => rw [← List.map_id W]
  apply List.map_congr_left
  intro row hrow
  simp only [Function.comp_apply, id]
  exact zipWith_mul_inv_cancel row s (hrows row hrow) hnz

/-- Absorbing a scale into a LayerNorm and then absorbing its reciprocal
restores weight and bias exactly. -/
theorem absorbLayer_roundtrip_layerNorm (w b s : Tensor1)
    (hw : w.length = s.length) (hb : b.length = s.length)
    (hnz : ∀ x ∈ s, x ≠ 0) :
    absorbLayer (absorbLayer (SQLayer.layerNorm w b) s)
      (s.map (fun x => 1 / x)) = SQLayer.layerNorm w b := by
  simp only [absorbLayer, SQLayer.layerNorm.injEq]
  exact ⟨zipWith_mul_inv_cancel w s hw hnz, zipWith_mul_inv_cancel b s hb hnz⟩

theorem zipWith_map_self {α β : Type} (f : α → β → α) (g : α → β) :
    ∀ (a : List α), List.zipWith f a (a.map g) = a.map (fun x => f x (g x))
  | [] => rfl
  | x :: a => by simp [List.zipWith, zipWith_map_self f g a]

theorem absorbScaleOfScale_eq_map (s : Tensor1) :
    absorbScaleOfScale s = s.map (fun x => if x = 0 then 0 else 1 / x) := by
  unfold absorbScaleOfScale
  exact zipWith_map_self _ _ s

theorem absorbScaleOfScale_length (s : Tensor1) :
    (absorbScaleOfScale s).length = s.length := by
  rw [absorbScaleOfScale_eq_map]
  simp

theorem absorbScaleOfScale_ne_zero (s : Tensor1) (h : ∀ x ∈ s, x ≠ 0) :
    ∀ y ∈ absorbScaleOfScale s, y ≠ 0 := by
  intro y hy
  rw [absorbScaleOfScale_eq_map] at hy
  obtain ⟨x, hx, hxy⟩ := List.mem_map.mp hy
  rw [if_neg (h x hx)] at hxy
  rw [← hxy]
  exact one_div_ne_zero (h x hx)

theorem foldl_dinsert_names (s : Tensor1) :
    ∀ (names : List String) (d : List (String × Tensor1)),
      (d.map Prod.fst ++ names).Nodup →
      names.foldl (fun d2 n => dinsert d2 n s) d =
        d ++ names.map (fun n => (n, s))
  | [], d, _ => by simp
  | n :: names, d, hnd => by
    have hn : n ∉ d.map Prod.fst := by
      intro hmem
      rcases List.nodup_append.mp hnd with ⟨_, _, h3⟩
      exact h3 hmem (by simp)
    have hnd' : ((d ++ [(n, s)]).map Prod.fst ++ names).Nodup := by
      rw [List.map_append, List.append_assoc]
      simpa using hnd
    rw [List.foldl_cons, dinsert_of_not_mem d n s hn,
      foldl_dinsert_names s names (d ++ [(n, s)]) hnd']
    simp

theorem calScales_fold_eq (model : Model) (im : String → Tensor1) (α : ℝ) :
    ∀ (l : List (String × List String)) (acc1 acc2 : List (String × Tensor1)),
      (acc1.map Prod.fst ++ l.map Prod.fst).Nodup →
      (acc2.map Prod.fst ++ (l.map Prod.snd).flatten).Nodup →
      l.foldl
        (fun acc e =>
          (dinsert acc.1 e.1
            (absorbScaleOfScale (TorchSmoothQuant.scaleOf model im α e)),
            e.2.foldl
              (fun d n => dinsert d n (TorchSmoothQuant.scaleOf model im α e))
              acc.2))
        (acc1, acc2) =
      (acc1 ++ l.map
          (fun e => (e.1, absorbScaleOfScale (TorchSmoothQuant.scaleOf model im α e))),
        acc2 ++ (l.map
          (fun e => e.2.map (fun n => (n, TorchSmoothQuant.scaleOf model im α e)))).flatten)
  | [], acc1, acc2, _, _ => by simp
  | e :: l, acc1, acc2, h1, h2 => by
    simp only [List.map_cons, List.flatten_cons] at h1 h2 ⊢
    have he1 : e.1 ∉ acc1.map Prod.fst := by
      intro hmem
      rcases List.nodup_append.mp h1 with ⟨_, _, h3⟩
      exact h3 hmem (by simp)
    have hinner : (acc2.map Prod.fst ++ e.2).Nodup := by
      refine List.Nodup.sublist ?_ h2
      exact ((List.sublist_append_left e.2 ((l.map Prod.snd).flatten)).append_left
        (acc2.map Prod.fst))
    have hstep1 : dinsert acc1 e.1
        (absorbScaleOfScale (TorchSmoothQuant.scaleOf model im α e)) =
        acc1 ++ [(e.1, absorbScaleOfScale (TorchSmoothQuant.scaleOf model im α e))] :=
      dinsert_of_not_mem _ _ _ he1
    have hstep2 : e.2.foldl
        (fun d n => dinsert d n (TorchSmoothQuant.scaleOf model im α e)) acc2 =
        acc2 ++ e.2.map (fun n => (n, TorchSmoothQuant.scaleOf model im α e)) :=
      foldl_dinsert_names _ e.2 acc2 hinner
    have h1' : ((acc1 ++
        [(e.1, absorbScaleOfScale (TorchSmoothQuant.scaleOf model im α e))]).map
          Prod.fst ++ l.map Prod.fst).Nodup := by
      rw [List.map_append, List.append_assoc]
      simpa using h1
    have h2' : (((acc2 ++
        e.2.map (fun n => (n, TorchSmoothQuant.scaleOf model im α e))).map
          Prod.fst) ++ (l.map Prod.snd).flatten).Nodup := by
      rw [List.map_append, List.append_assoc]
      have : (e.2.map (fun n => (n, TorchSmoothQuant.scaleOf model im α e))).map
          Prod.fst = e.2 := by
        rw [List.map_map]
        exact List.map_id e.2
      rw [this]
      exact h2
    rw [List.foldl_cons, hstep1, hstep2,
      calScales_fold_eq model im α l _ _ h1' h2']
    simp [List.append_assoc]

/-- The closed form of `_cal_scales` under a well-formed absorb map. -/
theorem calScales_spec (model : Model) (a2l : List (String × List String))
    (im : String → Tensor1) (α : ℝ)
    (hnd : (a2l.map Prod.fst ++ (a2l.map Prod.snd).flatten).Nodup) :
    TorchSmoothQuant.calScales model a2l im α =
      (a2l.map
        (fun e => (e.1, absorbScaleOfScale (TorchSmoothQuant.scaleOf model im α e))),
       (a2l.map
        (fun e => e.2.map (fun n => (n, TorchSmoothQuant.scaleOf model im α e)))).flatten) := by
  unfold TorchSmoothQuant.calScales
  have h1 : (([] : List (String × Tensor1)).map Prod.fst ++
      a2l.map Prod.fst).Nodup := by
    simp only [List.map_nil, List.nil_append]
    refine List.Nodup.sublist ?_ hnd
    exact List.sublist_append_left _ _
  have h2 : (([] : List (String × Tensor1)).map Prod.fst ++
      (a2l.map Prod.snd).flatten).Nodup := by
    simp only [List.map_nil, List.nil_append]
    refine List.Nodup.sublist ?_ hnd
    exact List.sublist_append_right _ _
  rw [calScales_fold_eq model im α a2l [] [] h1 h2]
  simp

/-- Destructuring the combined no-duplicates hypothesis at a cons. -/
theorem a2lNodup_cons {e : String × List String}
    {l : List (String × List String)}
    (h : ((e :: l).map Prod.fst ++ ((e :: l).map Prod.snd).flatten).Nodup) :
    e.1 ∉ l.map Prod.fst ∧ e.1 ∉ e.2 ∧ e.1 ∉ (l.map Prod.snd).flatten ∧
    e.2.Nodup ∧ (∀ n ∈ e.2, n ∉ l.map Prod.fst) ∧
    (∀ n ∈ e.2, n ∉ (l.map Prod.snd).flatten) ∧
    (l.map Prod.fst ++ (l.map Prod.snd).flatten).Nodup := by
  simp only [List.map_cons, List.flatten_cons, List.cons_append] at h
  obtain ⟨hhead, htail⟩ := List.nodup_cons.mp h
  rcases List.nodup_append.mp htail with ⟨hA, hBC, hABC⟩
  rcases List.nodup_append.mp hBC with ⟨hB, hC, hBCd⟩
  refine ⟨?_, ?_, ?_, hB, ?_, ?_, ?_⟩
  · intro hmem
    exact hhead (List.mem_append.mpr (Or.inl hmem))
  · intro hmem
    exact hhead (List.mem_append.mpr (Or.inr (List.mem_append.mpr (Or.inl hmem))))
  · intro hmem
    exact hhead (List.mem_append.mpr (Or.inr (List.mem_append.mpr (Or.inr hmem))))
  · intro n hn hmem
    exact hABC hmem (List.mem_append.mpr (Or.inl hn))
  · intro n hn hmem
    exact hBCd hn hmem
  · refine List.nodup_append.mpr ⟨hA, hC, ?_⟩
    intro a haA haC
    exact hABC haA (List.mem_append.mpr (Or.inr haC))

theorem applyScales_cons (m : Model) (e : String × List String)
    (l : List (String × List String)) (asi wsi : List (String × Tensor1)) :
    TorchSmoothQuant.applyScales m (e :: l) asi wsi =
      TorchSmoothQuant.applyScales
        (e.2.foldl (fun m2 n => scaleLayerWeight m2 n (lookupD wsi n))
          (absorbScalesAt m e.1 (lookupD asi e.1))) l asi wsi := rfl

theorem applyScales_notmem (asi wsi : List (String × Tensor1)) :
    ∀ (l : List (String × List String)) (m : Model) (x : String),
      x ∉ l.map Prod.fst → x ∉ (l.map Prod.snd).flatten →
      TorchSmoothQuant.applyScales m l asi wsi x = m x
  | [], _, _, _, _ => rfl
  | e :: l, m, x, hk, hd => by
    have hk' : x ∉ l.map Prod.fst := fun h => hk (by simp [h])
    have hd' : x ∉ (l.map Prod.snd).flatten := fun h => hd (by simp [h])
    have hxe1 : x ≠ e.1 := fun h => hk (by simp [h])
    have hxe2 : x ∉ e.2 := fun h => hd (by simp [h])
    rw [applyScales_cons, applyScales_notmem asi wsi l _ x hk' hd',
      foldl_scaleNames_notmem wsi e.2 _ x hxe2]
    exact updateModel_ne _ _ _ _ hxe1

theorem applyScales_key (asi wsi : List (String × Tensor1)) :
    ∀ (l : List (String × List String)) (m : Model) (k : String)
      (names : List String),
      (l.map Prod.fst ++ (l.map Prod.snd).flatten).Nodup →
      (k, names) ∈ l →
      TorchSmoothQuant.applyScales m l asi wsi k =
        absorbLayer (m k) (lookupD asi k)
  | [], _, _, _, _, hm => by simp at hm
  | e :: l, m, k, names, hnd, hm => by
    obtain ⟨h1, h2, h3, h4, h5, h6, h7⟩ := a2lNodup_cons hnd
    rw [applyScales_cons]
    rcases List.mem_cons.mp hm with he | hl
    · have hk1 : e.1 = k := by rw [← he]
      rw [applyScales_notmem asi wsi l _ k (hk1 ▸ h1) (hk1 ▸ h3),
        foldl_scaleNames_notmem wsi e.2 _ k (hk1 ▸ h2),
        absorbScalesAt, hk1, updateModel_same]
    · have hkl : k ∈ l.map Prod.fst := List.mem_map_of_mem Prod.fst hl
      have hke1 : k ≠ e.1 := fun h => h1 (h ▸ hkl)
      have hknotin : k ∉ e.2 := fun h => h5 k h hkl
      rw [applyScales_key asi wsi l _ k names h7 hl]
      congr 1
      rw [foldl_scaleNames_notmem wsi e.2 _ k hknotin]
      exact updateModel_ne _ _ _ _ hke1

theorem applyScales_down (asi wsi : List (String × Tensor1)) :
    ∀ (l : List (String × List String)) (m : Model) (x : String)
      (e : String × List String),
      (l.map Prod.fst ++ (l.map Prod.snd).flatten).Nodup →
      e ∈ l → x ∈ e.2 →
      TorchSmoothQuant.applyScales m l asi wsi x =
        scaleFoldLayer (m x) (lookupD wsi x)
  | [], _, _, _, _, hm, _ => by simp at hm
  | e0 :: l, m, x, e, hnd, hm, hx => by
    obtain ⟨h1, h2, h3, h4, h5, h6, h7⟩ := a2lNodup_cons hnd
    rw [applyScales_cons]
    rcases List.mem_cons.mp hm with he | hl
    · subst he
      rw [applyScales_notmem asi wsi l _ x (h5 x hx) (h6 x hx),
        foldl_scaleNames_once wsi e.2 _ x h4 hx]
      congr 1
      exact updateModel_ne _ _ _ _ (fun h => h2 (h ▸ hx))
    · have hxl : x ∈ (l.map Prod.snd).flatten :=
        List.mem_flatten.mpr ⟨e.2, List.mem_map_of_mem Prod.snd hl, hx⟩
      have hxe01 : x ≠ e0.1 := fun h => h3 (h ▸ hxl)
      have hxe02 : x ∉ e0.2 := fun h => h6 x h hxl
      rw [applyScales_down asi wsi l _ x e h7 hl hx]
      congr 1
      rw [foldl_scaleNames_notmem wsi e0.2 _ x hxe02]
      exact updateModel_ne _ _ _ _ hxe01

theorem isEmpty_false_of_ne_nil {α : Type} (l : List α) (h : l ≠ []) :
    l.isEmpty = false := by
  cases l with
  | nil => exact absurd rfl h
  | cons a t => rfl

/-- C1, amended: on a fresh quantizer, applying the fold-mode smooth-quant
transform with alpha = 1/2 and then `revert` restores every layer of the
model exactly and clears both scale records, PROVIDED no computed scale entry
is zero (equivalently, no channel has zero weight max; a zero scale — the
FIXME fallback — multiplies the absorbing layer by 0 and cannot be undone).
The absorb map must be well formed: keys and downstream names are pairwise
distinct, each group is nonempty, keys are affine LayerNorm layers and
downstream names are Linear layers of matching widths. -/
theorem transform_fold_revert_roundtrip (st : TorchSmoothQuant.SQState)
    (a2l : List (String × List String)) (im : String → Tensor1)
    (hw : st.weightScaleInfo = []) (ha : st.absorbScalesInfo = [])
    (hnd : (a2l.map Prod.fst ++ (a2l.map Prod.snd).flatten).Nodup)
    (hne : ∀ e ∈ a2l, e.2 ≠ [])
    (hLN : ∀ e ∈ a2l, ∃ w b, st.model e.1 = SQLayer.layerNorm w b ∧
      w.length = (TorchSmoothQuant.scaleOf st.model im ((1 : ℝ)/2) e).length ∧
      b.length = (TorchSmoothQuant.scaleOf st.model im ((1 : ℝ)/2) e).length)
    (hLin : ∀ e ∈ a2l, ∀ n ∈ e.2, ∃ W bo,
      st.model n = SQLayer.linear W bo ∧
      ∀ row ∈ W,
        row.length = (TorchSmoothQuant.scaleOf st.model im ((1 : ℝ)/2) e).length)
    (hnz : ∀ e ∈ a2l,
      ∀ x ∈ TorchSmoothQuant.scaleOf st.model im ((1 : ℝ)/2) e, x ≠ 0) :
    (∀ n, (TorchSmoothQuant.revert
        (TorchSmoothQuant.transform st (some a2l) im ((1 : ℝ)/2))).model n =
      st.model n) ∧
    (TorchSmoothQuant.revert
        (TorchSmoothQuant.transform st (some a2l) im ((1 : ℝ)/2))).weightScaleInfo
      = [] ∧
    (TorchSmoothQuant.revert
        (TorchSmoothQuant.transform st (some a2l) im ((1 : ℝ)/2))).absorbScalesInfo
      = [] := by
  have hm0 : (TorchSmoothQuant.revert st).model = st.model := by
    simp [TorchSmoothQuant.revert, hw, ha]
  by_cases hnil : a2l = []
  · subst hnil
    refine ⟨fun n => ?_, rfl, rfl⟩
    simp [TorchSmoothQuant.transform, TorchSmoothQuant.revert,
      TorchSmoothQuant.adjustParameters, TorchSmoothQuant.calScales, hw, ha]
  have hAne : a2l.map (fun e =>
      (e.1, absorbScaleOfScale (TorchSmoothQuant.scaleOf st.model im
        ((1 : ℝ)/2) e))) ≠ [] :=
    fun h => hnil (List.map_eq_nil_iff.mp h)
  have hWne : (a2l.map (fun e => e.2.map (fun n =>
      (n, TorchSmoothQuant.scaleOf st.model im ((1 : ℝ)/2) e)))).flatten ≠ [] := by
    intro hflat
    obtain ⟨e0, he0⟩ := List.exists_mem_of_ne_nil a2l hnil
    have h1 : e0.2.map (fun n =>
        (n, TorchSmoothQuant.scaleOf st.model im ((1 : ℝ)/2) e0)) = [] :=
      List.flatten_eq_nil_iff.mp hflat _ (List.mem_map_of_mem _ he0)
    exact hne e0 he0 (List.map_eq_nil_iff.mp h1)
  have htrans : TorchSmoothQuant.transform st (some a2l) im ((1 : ℝ)/2) =
      ⟨TorchSmoothQuant.applyScales st.model a2l
        (a2l.map (fun e => (e.1, absorbScaleOfScale
          (TorchSmoothQuant.scaleOf st.model im ((1 : ℝ)/2) e))))
        ((a2l.map (fun e => e.2.map (fun n =>
          (n, TorchSmoothQuant.scaleOf st.model im ((1 : ℝ)/2) e)))).flatten),
      (a2l.map (fun e => e.2.map (fun n =>
        (n, TorchSmoothQuant.scaleOf st.model im ((1 : ℝ)/2) e)))).flatten,
      a2l.map (fun e => (e.1, absorbScaleOfScale
        (TorchSmoothQuant.scaleOf st.model im ((1 : ℝ)/2) e)))⟩ := by
    unfold TorchSmoothQuant.transform
    simp only [hm0]
    unfold TorchSmoothQuant.adjustParameters
    rw [calScales_spec st.model a2l im ((1 : ℝ)/2) hnd]
    dsimp only []
    rw [isEmpty_false_of_ne_nil _ hAne, isEmpty_false_of_ne_nil _ hWne]
    simp
  -- notation for the computed scales and dicts
  set S : String × List String → Tensor1 :=
    fun e => TorchSmoothQuant.scaleOf st.model im ((1 : ℝ)/2) e with hS
  set asiL : List (String × Tensor1) :=
    a2l.map (fun e => (e.1, absorbScaleOfScale (S e))) with hasiL
  set wsiL : List (String × Tensor1) :=
    (a2l.map (fun e => e.2.map (fun n => (n, S e)))).flatten with hwsiL
  have hasiKeys : asiL.map Prod.fst = a2l.map Prod.fst := by
    rw [hasiL, List.map_map]
    rfl
  have hwsiKeys : wsiL.map Prod.fst = (a2l.map Prod.snd).flatten := by
    rw [hwsiL, List.map_flatten, List.map_map]
    congr 1
    apply List.map_congr_left
    intro e _
    simp only [Function.comp_apply]
    rw [List.map_map,
      show (Prod.fst ∘ fun n : String => (n, S e)) = id from rfl, List.map_id]
  have hKeysNodup : (a2l.map Prod.fst).Nodup :=
    List.Nodup.sublist (List.sublist_append_left _ _) hnd
  have hDownsNodup : ((a2l.map Prod.snd).flatten).Nodup :=
    List.Nodup.sublist (List.sublist_append_right _ _) hnd
  have hdisj : ∀ x, x ∈ a2l.map Prod.fst →
      x ∈ (a2l.map Prod.snd).flatten → False := by
    rcases List.nodup_append.mp hnd with ⟨_, _, hd⟩
    exact fun x hx hy => hd hx hy
  set M : Model := TorchSmoothQuant.applyScales st.model a2l asiL wsiL with hM
  have hrw : ∀ n, (TorchSmoothQuant.revert
      (TorchSmoothQuant.transform st (some a2l) im ((1 : ℝ)/2))).model n =
      (asiL.foldl
        (fun m e => absorbScalesAt m e.1
          ((lookupD asiL e.1).map (fun x => 1 / x)))
        (wsiL.foldl
          (fun m e => scaleLayerWeight m e.1
            ((lookupD wsiL e.1).map (fun x => 1 / x))) M)) n := by
    intro n
    rw [htrans]
    rfl
  refine ⟨fun n => ?_, by rw [htrans]; rfl, by rw [htrans]; rfl⟩
  rw [hrw n]
  by_cases hkey : ∃ e, e ∈ a2l ∧ e.1 = n
  · obtain ⟨e, hea, hen⟩ := hkey
    obtain ⟨w, b, hwb, hwlen, hblen⟩ := hLN e hea
    have hA_mem : (n, absorbScaleOfScale (S e)) ∈ asiL := by
      rw [hasiL, ← hen]
      exact List.mem_map_of_mem _ hea
    have hlookupA : lookupD asiL n = absorbScaleOfScale (S e) := by
      unfold lookupD
      rw [alookup_of_mem_nodup asiL n _ (by rw [hasiKeys]; exact hKeysNodup)
        hA_mem]
      rfl
    have hmemk : n ∈ a2l.map Prod.fst := by
      rw [← hen]
      exact List.mem_map_of_mem Prod.fst hea
    have hnotdown : n ∉ (a2l.map Prod.snd).flatten := fun hmem =>
      hdisj n hmemk hmem
    have hMn : M n = absorbLayer (st.model n) (lookupD asiL n) := by
      rw [hM]
      exact applyScales_key asiL wsiL a2l st.model n e.2 hnd
        (by rw [← hen]; exact hea)
    have hm1 : (wsiL.foldl
        (fun m e => scaleLayerWeight m e.1
          ((lookupD wsiL e.1).map (fun x => 1 / x))) M) n = M n := by
      apply foldl_scaleEntries_notmem
      intro p hp hpn
      apply hnotdown
      rw [← hwsiKeys, ← hpn]
      exact List.mem_map_of_mem Prod.fst hp
    rw [foldl_absorbEntries_once
      (fun p => (lookupD asiL p.1).map (fun x => 1 / x)) asiL _ n
      (absorbScaleOfScale (S e)) (by rw [hasiKeys]; exact hKeysNodup) hA_mem]
    rw [hm1, hMn, hlookupA]
    rw [hen] at hwb
    rw [hwb]
    apply absorbLayer_roundtrip_layerNorm
    · rw [absorbScaleOfScale_length]
      exact hwlen
    · rw [absorbScaleOfScale_length]
      exact hblen
    · exact absorbScaleOfScale_ne_zero _ (hnz e hea)
  · by_cases hdown : ∃ e, e ∈ a2l ∧ n ∈ e.2
    · obtain ⟨e, hea, hne2⟩ := hdown
      obtain ⟨W, bo, hWbo, hrows⟩ := hLin e hea n hne2
      have hS_mem : (n, S e) ∈ wsiL := by
        rw [hwsiL]
        exact List.mem_flatten.mpr
          ⟨e.2.map (fun n => (n, S e)), List.mem_map_of_mem _ hea,
            List.mem_map_of_mem _ hne2⟩
      have hlookupS : lookupD wsiL n = S e := by
        unfold lookupD
        rw [alookup_of_mem_nodup wsiL n _ (by rw [hwsiKeys]; exact hDownsNodup)
          hS_mem]
        rfl
      have hmemd : n ∈ (a2l.map Prod.snd).flatten :=
        List.mem_flatten.mpr ⟨e.2, List.mem_map_of_mem Prod.snd hea, hne2⟩
      have hnotkey : n ∉ a2l.map Prod.fst := fun hmem => hdisj n hmem hmemd
      have hMn : M n = scaleFoldLayer (st.model n) (lookupD wsiL n) := by
        rw [hM]
        exact applyScales_down asiL wsiL a2l st.model n e hnd
          hea hne2
      have hm2step : (asiL.foldl
          (fun m e => absorbScalesAt m e.1
            ((lookupD asiL e.1).map (fun x => 1 / x)))
          (wsiL.foldl
            (fun m e => scaleLayerWeight m e.1
              ((lookupD wsiL e.1).map (fun x => 1 / x))) M)) n =
          (wsiL.foldl
            (fun m e => scaleLayerWeight m e.1
              ((lookupD wsiL e.1).map (fun x => 1 / x))) M) n := by
        apply foldl_absorbEntries_notmem
        intro p hp hpn
        apply hnotkey
        rw [← hasiKeys, ← hpn]
        exact List.mem_map_of_mem Prod.fst hp
      rw [hm2step]
      rw [foldl_scaleEntries_once
        (fun p => (lookupD wsiL p.1).map (fun x => 1 / x)) wsiL M n (S e)
        (by rw [hwsiKeys]; exact hDownsNodup) hS_mem]
      rw [hMn, hlookupS, hWbo]
      exact scaleFoldLayer_roundtrip_linear W bo (S e) hrows (hnz e hea)
    · have hnotkey : n ∉ a2l.map Prod.fst := by
        intro hmem
        obtain ⟨e, hea, hen⟩ := List.mem_map.mp hmem
        exact hkey ⟨e, hea, hen⟩
      have hnotdown : n ∉ (a2l.map Prod.snd).flatten := by
        intro hmem
        obtain ⟨sub, hsub, hnsub⟩ := List.mem_flatten.mp hmem
        obtain ⟨e, hea, hesub⟩ := List.mem_map.mp hsub
        exact hdown ⟨e, hea, by rw [hesub]; exact hnsub⟩
      have hMn : M n = st.model n := by
        rw [hM]
        exact applyScales_notmem asiL wsiL a2l st.model n
          hnotkey hnotdown
      have hm1 : (wsiL.foldl
          (fun m e => scaleLayerWeight m e.1
            ((lookupD wsiL e.1).map (fun x => 1 / x))) M) n = M n := by
        apply foldl_scaleEntries_notmem
        intro p hp hpn
        apply hnotdown
        rw [← hwsiKeys, ← hpn]
        exact List.mem_map_of_mem Prod.fst hp
      have hm2 : (asiL.foldl
          (fun m e => absorbScalesAt m e.1
            ((lookupD asiL e.1).map (fun x => 1 / x)))
          (wsiL.foldl
            (fun m e => scaleLayerWeight m e.1
              ((lookupD wsiL e.1).map (fun x => 1 / x))) M)) n =
          (wsiL.foldl
            (fun m e => scaleLayerWeight m e.1
              ((lookupD wsiL e.1).map (fun x => 1 / x))) M) n := by
        apply foldl_absorbEntries_notmem
        intro p hp hpn
        apply hnotkey
        rw [← hasiKeys, ← hpn]
        exact List.mem_map_of_mem Prod.fst hp
      rw [hm2, hm1, hMn]

/-- A one-channel model with a LayerNorm absorbing into a Linear layer. -/
noncomputable def modelRT : Model := fun n =>
  if n = "a" then SQLayer.layerNorm [1] [2]
  else if n = "b" then SQLayer.linear [[1]] none
  else SQLayer.linear [] none

noncomputable def stRT : TorchSmoothQuant.SQState := ⟨modelRT, [], []⟩

theorem scaleRT : TorchSmoothQuant.scaleOf stRT.model (fun _ => [1])
    ((1 : ℝ)/2) ("a", ["b"]) = [1] := by
  unfold TorchSmoothQuant.scaleOf
  have hmb : stRT.model "b" = SQLayer.linear [[1]] none := by
    simp [stRT, modelRT]
  simp only [List.headD, List.map, hmb, reshapeInChannelToLast]
  unfold calScale colAbsMax catDim0
  simp [Real.one_rpow]
  norm_num

/-- C1 witness: the round trip applied to the concrete one-channel model with
input max `[1]` (all computed scales equal 1, hence nonzero). -/
theorem transform_fold_revert_roundtrip_witness :
    (∀ n, (TorchSmoothQuant.revert (TorchSmoothQuant.transform stRT
        (some [("a", ["b"])]) (fun _ => [1]) ((1 : ℝ)/2))).model n =
      stRT.model n) ∧
    (TorchSmoothQuant.revert (TorchSmoothQuant.transform stRT
        (some [("a", ["b"])]) (fun _ => [1]) ((1 : ℝ)/2))).weightScaleInfo
      = [] ∧
    (TorchSmoothQuant.revert (TorchSmoothQuant.transform stRT
        (some [("a", ["b"])]) (fun _ => [1]) ((1 : ℝ)/2))).absorbScalesInfo
      = [] := by
  apply transform_fold_revert_roundtrip
  · rfl
  · rfl
  · simp
  · intro e he
    simp only [List.mem_singleton] at he
    subst he
    simp
  · intro e he
    simp only [List.mem_singleton] at he
    subst he
    refine ⟨[1], [2], by simp [stRT, modelRT], ?_, ?_⟩
    · rw [scaleRT]
    · rw [scaleRT]
      simp
  · intro e he n hn
    simp only [List.mem_singleton] at he
    subst he
    simp only [List.mem_singleton] at hn
    subst hn
    refine ⟨[[1]], none, by simp [stRT, modelRT], ?_⟩
    intro row hrow
    simp only [List.mem_singleton] at hrow
    subst hrow
    rw [scaleRT]
  · intro e he x hx
    simp only [List.mem_singleton] at he
    subst he
    rw [scaleRT] at hx
    simp only [List.mem_singleton] at hx
    subst hx
    norm_num

/-- The degenerate model: the Linear column under channel 0 is all zero, so
the computed scale for channel 0 is 0 and the LayerNorm weight is wiped. -/
noncomputable def modelDeg : Model := fun n =>
  if n = "ln" then SQLayer.layerNorm [1, 1] [0, 0]
  else if n = "fc" then SQLayer.linear [[0, 1]] none
  else SQLayer.linear [] none

noncomputable def stDeg : TorchSmoothQuant.SQState := ⟨modelDeg, [], []⟩

/-- C1 counterexample: on the degenerate model (zero weight max in channel 0,
the FIXME fallback), the fold transform with alpha = 1/2 followed by `revert`
does NOT restore the LayerNorm weights: channel 0 was multiplied by 0 and
stays 0 instead of returning to 1. -/
theorem transform_fold_revert_counterexample :
    (TorchSmoothQuant.revert (TorchSmoothQuant.transform stDeg
        (some [("ln", ["fc"])]) (fun _ => [1, 1]) ((1 : ℝ)/2))).model "ln" ≠
      stDeg.model "ln" := by
  have hscale : TorchSmoothQuant.scaleOf stDeg.model (fun _ => [1, 1])
      ((1 : ℝ)/2) ("ln", ["fc"]) = [0, 1] := by
    unfold TorchSmoothQuant.scaleOf
    have hmb : stDeg.model "fc" = SQLayer.linear [[0, 1]] none := by
      simp [stDeg, modelDeg]
    simp only [List.headD, List.map, hmb, reshapeInChannelToLast]
    unfold calScale colAbsMax catDim0
    have hexp : (1 : ℝ) - 1/2 = 1/2 := by norm_num
    have hz : (0 : ℝ) ^ ((1 : ℝ)/2) = 0 := Real.zero_rpow (by norm_num)
    simp [hexp, hz, Real.one_rpow]
    norm_num
  intro heq
  rw [TorchSmoothQuant.transform] at heq
  have hm0 : (TorchSmoothQuant.revert stDeg).model = stDeg.model := by
    simp [TorchSmoothQuant.revert, stDeg]
  simp only [hm0] at heq
  rw [TorchSmoothQuant.adjustParameters, TorchSmoothQuant.calScales] at heq
  simp only [List.foldl_cons, List.foldl_nil] at heq
  rw [hscale] at heq
  simp [TorchSmoothQuant.applyScales, TorchSmoothQuant.revert,
    dinsert, alookup, lookupD, absorbScaleOfScale, absorbScalesAt,
    scaleLayerWeight, updateModel, scaleFoldLayer, absorbLayer,
    stDeg, modelDeg] at heq

/-! ### The end-to-end LayerNorm to Linear scenario -/

/-- Forward pass of `torch.nn.LayerNorm` normalization (eps = 1e-5). -/
noncomputable def lnNormalize (x : Tensor1) : Tensor1 :=
  let μ := x.sum / (x.length : ℝ)
  let σ2 := (x.map (fun v => (v - μ)^2)).sum / (x.length : ℝ)
  x.map (fun v => (v - μ) / Real.sqrt (σ2 + 1e-5))

/-- Forward pass of an affine `torch.nn.LayerNorm`. -/
noncomputable def layerNormForward (w b x : Tensor1) : Tensor1 :=
  List.zipWith (· + ·) (List.zipWith (· * ·) (lnNormalize x) w) b

/-- Forward pass of a two-layer model: a LayerNorm feeding a Linear layer. -/
noncomputable def modelForwardLNLinear (m : Model) (lnName fcName : String)
    (x : Tensor1) : Tensor1 :=
  match m lnName, m fcName with
  | SQLayer.layerNorm w b, SQLayer.linear W bo =>
      linearForward W bo (layerNormForward w b x)
  | _, _ => []

/-- The scenario model: a LayerNorm with unit weights feeding a Linear layer
whose per-channel weight max is `[1, 1]`. -/
noncomputable def modelScen : Model := fun n =>
  if n = "ln" then SQLayer.layerNorm [1, 1] [0, 0]
  else if n = "fc" then SQLayer.linear [[1, 1]] none
  else SQLayer.linear [] none

noncomputable def stScen : TorchSmoothQuant.SQState := ⟨modelScen, [], []⟩

theorem sqrt_two_ne_zero : Real.sqrt 2 ≠ 0 :=
  ne_of_gt (Real.sqrt_pos.mpr (by norm_num))

theorem rpow_half_two : (2 : ℝ) ^ ((1 : ℝ)/2) = Real.sqrt 2 :=
  (Real.sqrt_eq_rpow 2).symm

theorem rpow_half_four : (4 : ℝ) ^ ((1 : ℝ)/2) = 2 := by
  rw [← Real.sqrt_eq_rpow, show (4 : ℝ) = 2^2 by norm_num]
  exact Real.sqrt_sq (by norm_num)

theorem rpow_inv_two : (2 : ℝ) ^ ((2 : ℝ)⁻¹) = Real.sqrt 2 := by
  rw [← one_div]
  exact rpow_half_two

theorem rpow_inv_four : (4 : ℝ) ^ ((2 : ℝ)⁻¹) = 2 := by
  rw [← one_div]
  exact rpow_half_four

theorem one_le_sqrt_two : (1 : ℝ) ≤ Real.sqrt 2 := by
  rw [show (1 : ℝ) = Real.sqrt 1 by simp]
  exact Real.sqrt_le_sqrt (by norm_num)

/-- The group scale of the scenario: `[sqrt 2, 2]`. -/
theorem scaleScen : TorchSmoothQuant.scaleOf stScen.model (fun _ => [2, 4])
    ((1 : ℝ)/2) ("ln", ["fc"]) = [Real.sqrt 2, 2] := by
  unfold TorchSmoothQuant.scaleOf
  have hmb : stScen.model "fc" = SQLayer.linear [[1, 1]] none := by
    simp [stScen, modelScen]
  simp only [List.headD, List.map, hmb, reshapeInChannelToLast]
  unfold calScale colAbsMax catDim0
  have hexp : (1 : ℝ) - 1/2 = 1/2 := by norm_num
  have hmax2 : max (Real.sqrt 2) 1e-5 = Real.sqrt 2 := by
    apply max_eq_left
    linarith [one_le_sqrt_two]
  have hmax4 : max (2 : ℝ) 1e-5 = 2 := by
    apply max_eq_left
    norm_num
  simp [hexp, Real.one_rpow, rpow_half_two, rpow_half_four, rpow_inv_two,
    rpow_inv_four, sqrt_two_ne_zero, hmax2, hmax4]

/-- C4, amended: in the LayerNorm-to-Linear scenario with calibration input
max `[2, 4]`, Linear per-channel weight max `[1, 1]` and alpha = 1/2, the
computed group scale is `[sqrt 2, 2]`; the fold transform multiplies the
LayerNorm weight and bias by the RECIPROCALS `[1/sqrt 2, 1/2]` (the stored
absorb scale) and the Linear weight by `[sqrt 2, 2]` — the inverse of the
direction the claim states — and the forward output on the calibration input
`[2, 4]` is unchanged in exact arithmetic. -/
theorem transform_scen_model_ln :
    (TorchSmoothQuant.transform stScen (some [("ln", ["fc"])])
        (fun _ => [2, 4]) ((1 : ℝ)/2)).model "ln" =
      SQLayer.layerNorm [(Real.sqrt 2)⁻¹, (2 : ℝ)⁻¹] [0, 0] := by
  have hm0 : (TorchSmoothQuant.revert stScen).model = stScen.model := by
    simp [TorchSmoothQuant.revert, stScen]
  rw [TorchSmoothQuant.transform]
  simp only [hm0]
  rw [TorchSmoothQuant.adjustParameters, TorchSmoothQuant.calScales]
  simp only [List.foldl_cons, List.foldl_nil]
  rw [scaleScen]
  simp [TorchSmoothQuant.applyScales, dinsert, alookup, lookupD,
    absorbScaleOfScale, absorbScalesAt, scaleLayerWeight, updateModel,
    scaleFoldLayer, absorbLayer, stScen, modelScen, sqrt_two_ne_zero,
    one_div]

theorem transform_scen_model_fc :
    (TorchSmoothQuant.transform stScen (some [("ln", ["fc"])])
        (fun _ => [2, 4]) ((1 : ℝ)/2)).model "fc" =
      SQLayer.linear [[Real.sqrt 2, 2]] none := by
  have hm0 : (TorchSmoothQuant.revert stScen).model = stScen.model := by
    simp [TorchSmoothQuant.revert, stScen]
  rw [TorchSmoothQuant.transform]
  simp only [hm0]
  rw [TorchSmoothQuant.adjustParameters, TorchSmoothQuant.calScales]
  simp only [List.foldl_cons, List.foldl_nil]
  rw [scaleScen]
  simp [TorchSmoothQuant.applyScales, dinsert, alookup, lookupD,
    absorbScaleOfScale, absorbScalesAt, scaleLayerWeight, updateModel,
    scaleFoldLayer, absorbLayer, stScen, modelScen, sqrt_two_ne_zero,
    one_div]

/-- C4, amended: in the LayerNorm-to-Linear scenario with calibration input
max `[2, 4]`, Linear per-channel weight max `[1, 1]` and alpha = 1/2, the
computed group scale is `[sqrt 2, 2]`; the fold transform multiplies the
LayerNorm weight and bias by the RECIPROCALS `[1/sqrt 2, 1/2]` (the stored
absorb scale) and the Linear weight by `[sqrt 2, 2]` — the inverse of the
direction the claim states — and the forward output on the calibration input
`[2, 4]` is unchanged in exact arithmetic. -/
theorem fold_scenario_amended :
    TorchSmoothQuant.scaleOf stScen.model (fun _ => [2, 4]) ((1 : ℝ)/2)
        ("ln", ["fc"]) = [Real.sqrt 2, 2] ∧
    (TorchSmoothQuant.transform stScen (some [("ln", ["fc"])])
        (fun _ => [2, 4]) ((1 : ℝ)/2)).model "ln" =
      SQLayer.layerNorm [(Real.sqrt 2)⁻¹, (2 : ℝ)⁻¹] [0, 0] ∧
    (TorchSmoothQuant.transform stScen (some [("ln", ["fc"])])
        (fun _ => [2, 4]) ((1 : ℝ)/2)).model "fc" =
      SQLayer.linear [[Real.sqrt 2, 2]] none ∧
    modelForwardLNLinear
        (TorchSmoothQuant.transform stScen (some [("ln", ["fc"])])
          (fun _ => [2, 4]) ((1 : ℝ)/2)).model "ln" "fc" [2, 4] =
      modelForwardLNLinear stScen.model "ln" "fc" [2, 4] := by
  refine ⟨scaleScen, transform_scen_model_ln, transform_scen_model_fc, ?_⟩
  rw [modelForwardLNLinear, transform_scen_model_ln, transform_scen_model_fc]
  rw [modelForwardLNLinear]
  have hmln : stScen.model "ln" = SQLayer.layerNorm [1, 1] [0, 0] := by
    simp [stScen, modelScen]
  have hmfc : stScen.model "fc" = SQLayer.linear [[1, 1]] none := by
    simp [stScen, modelScen]
  rw [hmln, hmfc]
  simp only [linearForward, layerNormForward, lnNormalize]
  simp only [List.map, List.zipWith, List.sum_cons, List.sum_nil]
  field_simp
  ring

/-- C4 counterexample: the fold transform multiplies the LayerNorm weight by
`[1/sqrt 2, 1/2]`, not by the claimed factors `[sqrt 2, 2]` (for instance,
the channel-0 factor satisfies `1/sqrt 2 ≠ sqrt 2`); the claim inverts the
direction of the absorb and weight scales. -/
theorem fold_scenario_counterexample :
    (TorchSmoothQuant.transform stScen (some [("ln", ["fc"])])
        (fun _ => [2, 4]) ((1 : ℝ)/2)).model "ln" =
      SQLayer.layerNorm [(Real.sqrt 2)⁻¹, (2 : ℝ)⁻¹] [0, 0] ∧
    (Real.sqrt 2)⁻¹ ≠ Real.sqrt 2 ∧ ((2 : ℝ)⁻¹) ≠ 2 := by
  refine ⟨transform_scen_model_ln, ?_, by norm_num⟩
  intro h
  have h2 : Real.sqrt 2 * Real.sqrt 2 = 2 := Real.mul_self_sqrt (by norm_num)
  have h1 : (Real.sqrt 2)⁻¹ * Real.sqrt 2 = 1 :=
    inv_mul_cancel₀ sqrt_two_ne_zero
  rw [h] at h1
  rw [h2] at h1
  norm_num at h1

end NeuralCompressor
